import Mathlib

/-!
Shallow embedding of `src/mkmovies.py` and verification of its specification.

The program groups timestamped images by temporal proximity (`group_by_mtime`)
and, for each group, stages the files under sequential names in a temporary
directory (`sequential_links`) and invokes an external encoder
(`assemble_movie`).  External effects (mktemp, ln, ffmpeg, rm) are modelled by
an oracle assigning results to the external calls, and executions produce an
explicit event trace.
-/

namespace Mkmovies

/-- Timestamps: instants with subsecond precision.  Python `datetime` values
have exact microsecond precision, so an instant is modelled as an integer
count of microseconds. -/
abbrev Time := ℤ

/-- Items of the association list built by `get_files`: (mtime, filename). -/
abbrev Item := Time × String

/-- Python 3 `round` applied to a non-negative duration of `usec`
microseconds expressed in seconds: round to the nearest integer number of
seconds, ties to the even integer (banker's rounding). -/
def pyRoundSeconds (usec : ℤ) : ℤ :=
  let q := usec / 1000000
  let r := usec % 1000000
  if r < 500000 then q
  else if 500000 < r then q + 1
  else if q % 2 = 0 then q else q + 1

/-- `compute_gap(time0, time1)`: the absolute difference of the two
timestamps in seconds, rounded to the nearest second. -/
def compute_gap (time0 time1 : Time) : ℤ := pyRoundSeconds |time1 - time0|

/-- The comparison used by `sorted(alist, key=lambda x: x[0])`: compare the
modification times (first components) only. -/
def mtimeLe (x y : Item) : Bool := x.1 ≤ y.1

/-- One iteration of the loop body of `group_by_mtime`.  The Python loop
mutates `outlist`; its net effect on `outlist` per item is: if `outlist` is
empty, start it as `[[nextitem]]`; otherwise compare `nextitem` against the
last item of the last group (`lastgroup[-1]`; the `assert` in the source
guarantees `lastgroup` is non-empty, so the `getLastD` default is never
used), appending `[[nextitem]]` as a new group when the gap reaches `gap`,
and extending the last group with `nextitem` otherwise. -/
def group_step (gap : ℤ) (outlist : List (List Item)) (nextitem : Item) :
    List (List Item) :=
  match outlist with
  | [] => [[nextitem]]
  | _ :: _ =>
    if gap ≤ compute_gap ((outlist.getLastD []).getLastD nextitem).1 nextitem.1 then
      outlist ++ [[nextitem]]
    else
      outlist.dropLast ++ [outlist.getLastD [] ++ [nextitem]]

/-- `group_by_mtime(alist, gap)`: stably sort the association list by
modification time, then fold the grouping loop over the sorted list starting
from the empty `outlist`. -/
def group_by_mtime (alist : List Item) (gap : ℤ) : List (List Item) :=
  (alist.mergeSort mtimeLe).foldl (group_step gap) []

/-! Gap invariants of the produced groups. -/

/-- Two adjacent items of one group must have rounded gap strictly below the
threshold. -/
def withinGap (gap : ℤ) (a b : Item) : Prop := compute_gap a.1 b.1 < gap

/-- Two adjacent groups must be separated by a rounded gap of at least the
threshold, measured between the last item of the earlier group and the first
item of the later group. -/
def boundaryGap (gap : ℤ) (g h : List Item) : Prop :=
  ∀ a ∈ g.getLast?, ∀ b ∈ h.head?, gap ≤ compute_gap a.1 b.1

/-- Invariant maintained by the grouping loop over its accumulator. -/
def GroupInv (gap : ℤ) (acc : List (List Item)) : Prop :=
  (∀ g ∈ acc, g ≠ []) ∧
  (∀ g ∈ acc, g.Chain' (withinGap gap)) ∧
  acc.Chain' (boundaryGap gap)

/-! Embedding of the Movie Assembler: `sequential_links`, `assemble_movie`
and the per-group loop of `main`.  The external processes (mktemp, ln,
ffmpeg, rm) are modelled by an oracle fixing the outcome of each
invocation, and an execution records an explicit event trace. -/

/-- `MAX_GAP`: maximum gap in time between frames. -/
def MAX_GAP : ℤ := 30

/-- `FFMPEG_RATE`: number of frames per second. -/
def FFMPEG_RATE : ℕ := 4

/-- Python `format(idx)` with a `0Nd` format spec, for a non-negative index:
decimal digits zero-padded on the left to the given width; wider numbers
are not truncated. -/
def pyFormatZeroPad (width : ℕ) (n : ℕ) : String :=
  let s := toString n
  String.mk (List.replicate (width - s.length) '0') ++ s

/-- `INPUT_FMT = '06d'`: format of the tmp links to image files. -/
def input_fmt (n : ℕ) : String := pyFormatZeroPad 6 n

/-- `OUTPUT_FMT = '03d'`: format for the number part of output file names. -/
def output_fmt (n : ℕ) : String := pyFormatZeroPad 3 n

/-- Name of the sequential link created for the idx-th staged file. -/
def link_name (idx : ℕ) : String := input_fmt idx ++ ".jpg"

/-- Output name derived by `main` for group `idx`; `assemble_movie` appends
the ".mp4" extension when invoking the encoder. -/
def movie_name (idx : ℕ) : String := "movie_" ++ output_fmt idx

/-- Python `x[-3:] == "jpg"`: the predicate with which `assemble_movie`
recognizes image files.  Python strings are modelled by their character
lists; the slice `x[-3:]` is the whole string when it is shorter than
three characters. -/
def is_image (x : String) : Bool :=
  x.data.drop (x.data.length - 3) == "jpg".data

/-- One observable external action of an assembly. -/
inductive Event where
  | mktempFailed (rc : ℤ)
  | mktemp (tmp : String)
  | link (target dest : String) (rc : ℤ)
  | listing (tmp : String)
  | ffmpeg (args : String) (rc : ℤ)
  | rmrf (tmp : String)
deriving DecidableEq

/-- Result of one `assemble_movie` call: either a normal return of an exit
code, or termination of the whole process via `sys.exit`. -/
inductive ExecResult where
  | returned (rc : ℤ)
  | exited (rc : ℤ)
deriving DecidableEq

/-- Outcomes of the external invocations made during one assembly.
`subprocess.check_output` of mktemp either yields the temp dir path or
raises `CalledProcessError` carrying the tool's return code;
`subprocess.call` (used for `ln` and for `ffmpeg`) returns the child's exit
status and raises no exception on a nonzero status — consequently the
`except subprocess.CalledProcessError` handler inside the link loop of
`sequential_links` is unreachable code. -/
structure Oracle where
  mktempResult : Except ℤ String
  lnResult : ℕ → ℤ
  ffmpegResult : ℤ

/-- The part of the `sequential_links` context manager before the `yield`:
create the temp dir (on failure print the error and `sys.exit(1)` — no
directory exists at that point), then create one link per path in order —
each `ln` exit status is merely returned by `subprocess.call`, so a failed
link neither raises nor aborts — and finally list the directory.  Returns
the temp dir path to be yielded, if any, together with the event trace. -/
def sequential_links_enter (o : Oracle) (fpaths : List String) :
    Option String × List Event :=
  match o.mktempResult with
  | .error rc => (none, [.mktempFailed rc])
  | .ok tmp =>
    (some tmp,
      .mktemp tmp ::
        (fpaths.enum.map fun p =>
          .link p.2 (tmp ++ "/" ++ link_name p.1) (o.lnResult p.1)) ++
        [.listing tmp])

/-- The cleanup after the `yield`: remove the temp dir recursively. -/
def sequential_links_cleanup (tmp : String) : List Event := [.rmrf tmp]

/-- `assemble_movie(fpaths, name)`.  The list comprehension interleaves
"-i" flags with the paths and then keeps exactly the entries whose last
three characters are "jpg" (which drops every "-i" flag).  An empty
filtered list reports failure (return 1) before any staging.  Otherwise the
staging area is entered, the encoder is invoked — its exit status is the
call's return value, as `subprocess.call` returns rather than raises — and
the context manager's code after the `yield` deletes the staging area.
The source's intermediate `in_files` (the filtered list) and `full_files`
(the filtered paths prefixed with the working directory) are inlined. -/
def assemble_movie (o : Oracle) (cwd : String) (fpaths : List String)
    (name : String) : ExecResult × List Event :=
  if ((((fpaths.map (fun f => ["-i", f])).flatten).filter is_image)).length = 0 then
    (.returned 1, [])
  else
    match sequential_links_enter o
        ((((fpaths.map (fun f => ["-i", f])).flatten).filter is_image).map
          (fun f => cwd ++ "/" ++ f)) with
    | (none, tr) => (.exited 1, tr)
    | (some tmp, tr) =>
      (.returned o.ffmpegResult,
        tr ++
          [.ffmpeg ("ffmpeg -f image2 -i " ++ tmp ++ "/%06d.jpg -r " ++
            toString FFMPEG_RATE ++ " " ++ name ++ ".mp4") o.ffmpegResult] ++
          sequential_links_cleanup tmp)

/-- The per-group loop of `main` from group index `idx` on: assemble each
group under its derived movie name and report the returned code, then
continue with the next group; a `sys.exit` inside an assembly terminates
the process, leaving the remaining groups unprocessed.  Returns the
reported codes in order, and the process exit code if the loop was cut
short. -/
def run_groups (o : ℕ → Oracle) (cwd : String) :
    ℕ → List (List String) → List ℤ × Option ℤ
  | _, [] => ([], none)
  | idx, grp :: rest =>
    match assemble_movie (o idx) cwd grp (movie_name idx) with
    | (.exited rc, _) => ([], some rc)
    | (.returned rc, _) =>
      let r := run_groups o cwd (idx + 1) rest
      (rc :: r.1, r.2)

/-- `main`: group the timestamped files with threshold `MAX_GAP` and run the
assembly loop over the groups' path components. -/
def main_run (o : ℕ → Oracle) (cwd : String) (alist : List Item) :
    List ℤ × Option ℤ :=
  run_groups o cwd 0
    ((group_by_mtime alist MAX_GAP).map (fun grp => grp.map Prod.snd))

/-! Basic sanity checks on the worked example from the module docstring:
five files at elapsed seconds 0, 0.19, 0.50, 15.59, 102.0, threshold 30,
group as (first four)(last one). -/

example :
    group_by_mtime
      [(0, "a"), (190000, "b"), (500000, "c"), (15590000, "d"), (102000000, "e")]
      30
    = [[(0, "a"), (190000, "b"), (500000, "c"), (15590000, "d")], [(102000000, "e")]] := by
  unfold group_by_mtime
  rw [List.mergeSort_of_sorted (by decide)]
  decide

/-! Helper lemmas about `group_step` and its fold. -/

theorem flatten_group_step (gap : ℤ) (acc : List (List Item)) (x : Item) :
    (group_step gap acc x).flatten = acc.flatten ++ [x] := by
  cases acc with
  | nil => simp [group_step]
  | cons g gs =>
    have hne : (g :: gs) ≠ [] := List.cons_ne_nil g gs
    have hsplit : (g :: gs).dropLast ++ [(g :: gs).getLastD []] = g :: gs := by
      rw [List.getLastD_eq_getLast?, List.getLast?_eq_getLast _ hne]
      exact List.dropLast_append_getLast hne
    simp only [group_step]
    split
    · simp
    · conv_rhs => rw [← hsplit]
      simp

theorem flatten_foldl_group_step (gap : ℤ) :
    ∀ (l : List Item) (acc : List (List Item)),
      (l.foldl (group_step gap) acc).flatten = acc.flatten ++ l := by
  intro l
  induction l with
  | nil => intro acc; simp
  | cons x xs ih =>
    intro acc
    rw [List.foldl_cons, ih, flatten_group_step]
    simp

/-- C1: the groups returned by `group_by_mtime` partition the input exactly:
the concatenation of all groups is a permutation of the input association
list, so every input pair occurs in the groups with exactly its input
multiplicity — no duplicates, no omissions. -/
theorem group_by_mtime_partitions (alist : List Item) (gap : ℤ) :
    ((group_by_mtime alist gap).flatten).Perm alist := by
  unfold group_by_mtime
  rw [flatten_foldl_group_step]
  simpa using List.mergeSort_perm alist mtimeLe

theorem getLastD_eq_getLast {α : Type} (l : List α) (h : l ≠ []) (d : α) :
    l.getLastD d = l.getLast h := by
  rw [List.getLastD_eq_getLast?, List.getLast?_eq_getLast _ h]
  rfl

theorem mergeSort_pairwise_le (l : List Item) :
    (l.mergeSort mtimeLe).Pairwise (fun a b : Item => a.1 ≤ b.1) := by
  have hp : (l.mergeSort mtimeLe).Pairwise (fun a b => mtimeLe a b = true) :=
    List.sorted_mergeSort
      (by
        intro a b c hab hbc
        simp only [mtimeLe, decide_eq_true_eq] at hab hbc ⊢
        exact le_trans hab hbc)
      (by
        intro a b
        simp only [mtimeLe, Bool.or_eq_true, decide_eq_true_eq]
        exact le_total a.1 b.1)
      l
  exact hp.imp (by
    intro a b hab
    simpa [mtimeLe] using hab)

theorem group_step_inv (gap : ℤ) (acc : List (List Item)) (x : Item)
    (hinv : GroupInv gap acc) : GroupInv gap (group_step gap acc x) := by
  obtain ⟨hne, hwithin, hbound⟩ := hinv
  cases acc with
  | nil => refine ⟨?_, ?_, ?_⟩ <;> simp [group_step, List.chain'_singleton]
  | cons g gs =>
    have hLne : (g :: gs) ≠ [] := List.cons_ne_nil g gs
    have hlgmem : (g :: gs).getLastD [] ∈ (g :: gs) := by
      rw [getLastD_eq_getLast _ hLne]
      exact List.getLast_mem hLne
    have hlgne : (g :: gs).getLastD [] ≠ [] := hne _ hlgmem
    have hlast₁ : (g :: gs).getLast? = some ((g :: gs).getLastD []) := by
      rw [List.getLast?_eq_getLast _ hLne, getLastD_eq_getLast _ hLne]
    have hlast₂ : ((g :: gs).getLastD []).getLast? =
        some (((g :: gs).getLastD []).getLastD x) := by
      rw [List.getLast?_eq_getLast _ hlgne, getLastD_eq_getLast _ hlgne]
    have hsplit : (g :: gs).dropLast ++ [(g :: gs).getLastD []] = g :: gs := by
      rw [getLastD_eq_getLast _ hLne]
      exact List.dropLast_append_getLast hLne
    simp only [group_step]
    split
    next hcond =>
      refine ⟨?_, ?_, ?_⟩
      · intro g' hg'
        rcases List.mem_append.1 hg' with h1 | h1
        · exact hne _ h1
        · simp only [List.mem_singleton] at h1
          subst h1
          simp
      · intro g' hg'
        rcases List.mem_append.1 hg' with h1 | h1
        · exact hwithin _ h1
        · simp only [List.mem_singleton] at h1
          subst h1
          simp
      · refine List.chain'_append.2 ⟨hbound, by simp, ?_⟩
        intro y hy z hz
        simp only [List.head?_cons, Option.mem_some_iff] at hz
        subst hz
        rw [hlast₁, Option.mem_some_iff] at hy
        subst hy
        intro a ha b hb
        rw [hlast₂, Option.mem_some_iff] at ha
        simp only [List.head?_cons, Option.mem_some_iff] at hb
        subst ha
        subst hb
        exact hcond
    next hcond =>
      have hgaplt : withinGap gap (((g :: gs).getLastD []).getLastD x) x :=
        lt_of_not_le hcond
      refine ⟨?_, ?_, ?_⟩
      · intro g' hg'
        rcases List.mem_append.1 hg' with h1 | h1
        · exact hne _ ((List.dropLast_sublist (g :: gs)).mem h1)
        · simp only [List.mem_singleton] at h1
          subst h1
          simp
      · intro g' hg'
        rcases List.mem_append.1 hg' with h1 | h1
        · exact hwithin _ ((List.dropLast_sublist (g :: gs)).mem h1)
        · simp only [List.mem_singleton] at h1
          subst h1
          refine List.chain'_append.2 ⟨hwithin _ hlgmem, by simp, ?_⟩
          intro a ha b hb
          rw [hlast₂, Option.mem_some_iff] at ha
          simp only [List.head?_cons, Option.mem_some_iff] at hb
          subst ha
          subst hb
          exact hgaplt
      · have hchAcc :
            List.Chain' (boundaryGap gap)
              ((g :: gs).dropLast ++ [(g :: gs).getLastD []]) := by
          rw [hsplit]
          exact hbound
        obtain ⟨hch1, -, hbd⟩ := List.chain'_append.1 hchAcc
        refine List.chain'_append.2 ⟨hch1, by simp, ?_⟩
        intro y hy z hz
        simp only [List.head?_cons, Option.mem_some_iff] at hz
        subst hz
        intro a ha b hb
        have hhead : ((g :: gs).getLastD [] ++ [x]).head? =
            ((g :: gs).getLastD []).head? := by
          cases hlg : (g :: gs).getLastD [] with
          | nil => exact absurd hlg hlgne
          | cons u us => simp
        rw [hhead] at hb
        exact hbd y hy _ (by simp) a ha b hb

theorem foldl_group_step_inv (gap : ℤ) :
    ∀ (l : List Item) (acc : List (List Item)),
      GroupInv gap acc → GroupInv gap (l.foldl (group_step gap) acc) := by
  intro l
  induction l with
  | nil => intro acc h; exact h
  | cons y ys ih => intro acc h; exact ih _ (group_step_inv gap acc y h)

/-- C2: in the output of `group_by_mtime`, every group is non-empty, adjacent
items within a group have rounded gap strictly below the threshold, adjacent
groups are separated (last of the earlier to first of the later) by a rounded
gap of at least the threshold, and the concatenation of the groups is sorted
ascending by timestamp — so each group is sorted and groups appear in
ascending time order. -/
theorem group_by_mtime_gap_invariants (alist : List Item) (gap : ℤ) :
    (∀ g ∈ group_by_mtime alist gap, g ≠ []) ∧
    (∀ g ∈ group_by_mtime alist gap, g.Chain' (withinGap gap)) ∧
    (group_by_mtime alist gap).Chain' (boundaryGap gap) ∧
    ((group_by_mtime alist gap).flatten.map Prod.fst).Sorted (· ≤ ·) ∧
    (∀ g ∈ group_by_mtime alist gap, (g.map Prod.fst).Sorted (· ≤ ·)) := by
  have hinv : GroupInv gap (group_by_mtime alist gap) :=
    foldl_group_step_inv gap _ [] ⟨by simp, by simp, by simp⟩
  have hsorted : ((group_by_mtime alist gap).flatten.map Prod.fst).Sorted (· ≤ ·) := by
    unfold group_by_mtime
    rw [flatten_foldl_group_step]
    simp only [List.flatten_nil, List.nil_append]
    exact List.pairwise_map.2 (mergeSort_pairwise_le alist)
  refine ⟨hinv.1, hinv.2.1, hinv.2.2, hsorted, ?_⟩
  intro g hg
  exact hsorted.sublist ((List.sublist_flatten_of_mem hg).map Prod.fst)

/-- C7: `group_by_mtime` maps the empty input to the empty list of groups,
and a single-element input to exactly one group containing that element. -/
theorem group_by_mtime_empty_singleton (gap : ℤ) (x : Item) :
    group_by_mtime [] gap = [] ∧ group_by_mtime [x] gap = [[x]] := by
  constructor
  · simp [group_by_mtime]
  · simp [group_by_mtime, group_step]

/-! Order independence of the grouping (claim C8). -/

theorem group_step_map_fst (gap : ℤ) (acc₁ acc₂ : List (List Item))
    (x₁ x₂ : Item)
    (hacc : acc₁.map (List.map Prod.fst) = acc₂.map (List.map Prod.fst))
    (hx : x₁.1 = x₂.1) :
    (group_step gap acc₁ x₁).map (List.map Prod.fst) =
      (group_step gap acc₂ x₂).map (List.map Prod.fst) := by
  cases acc₁ with
  | nil =>
    have h2 : acc₂ = [] := by simpa using hacc.symm
    subst h2
    simp [group_step, hx]
  | cons g gs =>
    cases acc₂ with
    | nil => simp at hacc
    | cons g' gs' =>
      have hne₁ : (g :: gs) ≠ [] := List.cons_ne_nil g gs
      have hne₂ : (g' :: gs') ≠ [] := List.cons_ne_nil g' gs'
      have hlg : ((g :: gs).getLastD []).map Prod.fst =
          ((g' :: gs').getLastD []).map Prod.fst := by
        have h1 : ((g :: gs).map (List.map Prod.fst)).getLast? =
            ((g' :: gs').map (List.map Prod.fst)).getLast? := by rw [hacc]
        rw [List.getLast?_map, List.getLast?_map,
          List.getLast?_eq_getLast _ hne₁, List.getLast?_eq_getLast _ hne₂] at h1
        have h2 := Option.some.inj h1
        rwa [getLastD_eq_getLast _ hne₁, getLastD_eq_getLast _ hne₂]
      have hli : (((g :: gs).getLastD []).getLastD x₁).1 =
          (((g' :: gs').getLastD []).getLastD x₂).1 := by
        by_cases hcase : (g :: gs).getLastD [] = []
        · have h0 : (g' :: gs').getLastD [] = [] := by
            have h3 : ((g' :: gs').getLastD []).map Prod.fst = [] := by
              rw [← hlg, hcase]
              rfl
            exact List.map_eq_nil_iff.1 h3
          rw [hcase, h0]
          simpa using hx
        · have hn₂ : (g' :: gs').getLastD [] ≠ [] := by
            intro h0
            rw [h0] at hlg
            simp only [List.map_nil] at hlg
            exact hcase (List.map_eq_nil_iff.1 hlg)
          have h1 : (((g :: gs).getLastD []).map Prod.fst).getLast? =
              (((g' :: gs').getLastD []).map Prod.fst).getLast? := by rw [hlg]
          rw [List.getLast?_map, List.getLast?_map,
            List.getLast?_eq_getLast _ hcase, List.getLast?_eq_getLast _ hn₂] at h1
          have h2 := Option.some.inj h1
          rwa [getLastD_eq_getLast _ hcase, getLastD_eq_getLast _ hn₂]
      have hcc : compute_gap (((g :: gs).getLastD []).getLastD x₁).1 x₁.1 =
          compute_gap (((g' :: gs').getLastD []).getLastD x₂).1 x₂.1 := by
        rw [hli, hx]
      simp only [group_step]
      by_cases hc : gap ≤ compute_gap (((g :: gs).getLastD []).getLastD x₁).1 x₁.1
      · rw [if_pos hc, if_pos (by rw [← hcc]; exact hc)]
        simp only [List.map_append, List.map_cons, List.map_nil, hacc, hx]
      · rw [if_neg hc, if_neg (by rw [← hcc]; exact hc)]
        simp only [List.map_append, List.map_cons, List.map_nil,
          List.map_dropLast, hacc, hlg, hx]

theorem foldl_group_step_map_fst (gap : ℤ) :
    ∀ (l₁ l₂ : List Item) (acc₁ acc₂ : List (List Item)),
      l₁.map Prod.fst = l₂.map Prod.fst →
      acc₁.map (List.map Prod.fst) = acc₂.map (List.map Prod.fst) →
      (l₁.foldl (group_step gap) acc₁).map (List.map Prod.fst) =
        (l₂.foldl (group_step gap) acc₂).map (List.map Prod.fst) := by
  intro l₁
  induction l₁ with
  | nil =>
    intro l₂ acc₁ acc₂ hl hacc
    have h0 : l₂ = [] := by simpa using hl.symm
    subst h0
    simpa using hacc
  | cons x xs ih =>
    intro l₂ acc₁ acc₂ hl hacc
    cases l₂ with
    | nil => simp at hl
    | cons y ys =>
      simp only [List.map_cons, List.cons.injEq] at hl
      rw [List.foldl_cons, List.foldl_cons]
      exact ih ys _ _ hl.2 (group_step_map_fst gap acc₁ acc₂ x y hacc hl.1)

theorem mergeSort_map_fst_eq (l₁ l₂ : List Item) (hperm : l₁.Perm l₂) :
    (l₁.mergeSort mtimeLe).map Prod.fst = (l₂.mergeSort mtimeLe).map Prod.fst := by
  have hp : ((l₁.mergeSort mtimeLe).map Prod.fst).Perm
      ((l₂.mergeSort mtimeLe).map Prod.fst) :=
    ((List.mergeSort_perm l₁ mtimeLe).map Prod.fst).trans
      ((hperm.map Prod.fst).trans ((List.mergeSort_perm l₂ mtimeLe).map Prod.fst).symm)
  exact List.eq_of_perm_of_sorted hp
    (List.pairwise_map.2 (mergeSort_pairwise_le l₁))
    (List.pairwise_map.2 (mergeSort_pairwise_le l₂))

theorem mergeSort_pairwise_lt_of_nodup (l : List Item)
    (hl : (l.map Prod.fst).Nodup) :
    (l.mergeSort mtimeLe).Pairwise (fun a b : Item => a.1 < b.1) := by
  have h1 := mergeSort_pairwise_le l
  have h2 : (l.mergeSort mtimeLe).Pairwise (fun a b : Item => a.1 ≠ b.1) := by
    have hnd : ((l.mergeSort mtimeLe).map Prod.fst).Nodup :=
      (((List.mergeSort_perm l mtimeLe).map Prod.fst).nodup_iff).2 hl
    exact List.pairwise_map.1 hnd
  exact (h1.and h2).imp (fun h => lt_of_le_of_ne h.1 h.2)

theorem mergeSort_eq_of_perm_nodup (l₁ l₂ : List Item) (hperm : l₁.Perm l₂)
    (hnd : (l₁.map Prod.fst).Nodup) :
    l₁.mergeSort mtimeLe = l₂.mergeSort mtimeLe := by
  haveI : IsAntisymm Item (fun a b : Item => a.1 < b.1) :=
    ⟨fun a b h1 h2 => absurd h1 (lt_asymm h2)⟩
  have hperm₂ : (l₁.mergeSort mtimeLe).Perm (l₂.mergeSort mtimeLe) :=
    (List.mergeSort_perm l₁ mtimeLe).trans
      (hperm.trans (List.mergeSort_perm l₂ mtimeLe).symm)
  exact List.eq_of_perm_of_sorted hperm₂
    (mergeSort_pairwise_lt_of_nodup l₁ hnd)
    (mergeSort_pairwise_lt_of_nodup l₂ (((hperm.map Prod.fst).nodup_iff).1 hnd))

/-- C8: the grouping result is independent of the input order.  For inputs
that are permutations of each other the groups agree modulo tie-breaking
among exactly-equal timestamps: the timestamp structure of the output is
identical, and when all timestamps are distinct (no ties to break) the
outputs are fully identical. -/
theorem group_by_mtime_order_independent (l₁ l₂ : List Item) (gap : ℤ)
    (hperm : l₁.Perm l₂) :
    (group_by_mtime l₁ gap).map (List.map Prod.fst) =
      (group_by_mtime l₂ gap).map (List.map Prod.fst) ∧
    ((l₁.map Prod.fst).Nodup →
      group_by_mtime l₁ gap = group_by_mtime l₂ gap) := by
  constructor
  · unfold group_by_mtime
    exact foldl_group_step_map_fst gap _ _ [] []
      (mergeSort_map_fst_eq l₁ l₂ hperm) rfl
  · intro hnd
    unfold group_by_mtime
    rw [mergeSort_eq_of_perm_nodup l₁ l₂ hperm hnd]

/-- Witness for C8 at a concrete pair of permuted inputs. -/
theorem group_by_mtime_order_independent_witness :
    (group_by_mtime [(0, "a"), (100, "b")] 30).map (List.map Prod.fst) =
      (group_by_mtime [(100, "b"), (0, "a")] 30).map (List.map Prod.fst) ∧
    group_by_mtime [(0, "a"), (100, "b")] 30 =
      group_by_mtime [(100, "b"), (0, "a")] 30 :=
  ⟨(group_by_mtime_order_independent _ _ 30
      (List.Perm.swap (100, "b") (0, "a") [])).1,
    (group_by_mtime_order_independent _ _ 30
      (List.Perm.swap (100, "b") (0, "a") [])).2 (by decide)⟩

/-! Equations for the three execution shapes of `assemble_movie`, and the
image-filter simplification. -/

theorem filter_in_files (fpaths : List String) :
    ((fpaths.map (fun f => ["-i", f])).flatten).filter is_image =
      fpaths.filter is_image := by
  induction fpaths with
  | nil => rfl
  | cons f fs ih =>
    rw [List.map_cons, List.flatten_cons, List.filter_append, ih]
    by_cases hf : is_image f
    · simp [List.filter_cons, hf, (by decide : is_image "-i" = false)]
    · simp [List.filter_cons, hf, (by decide : is_image "-i" = false)]

theorem assemble_movie_eq_no_images (o : Oracle) (cwd : String)
    (fpaths : List String) (name : String)
    (hlen : ((((fpaths.map (fun f => ["-i", f])).flatten).filter is_image)).length = 0) :
    assemble_movie o cwd fpaths name = (.returned 1, []) := by
  unfold assemble_movie
  rw [if_pos hlen]

theorem assemble_movie_eq_mktemp_error (o : Oracle) (cwd : String)
    (fpaths : List String) (name : String) (rc : ℤ)
    (hlen : ¬ ((((fpaths.map (fun f => ["-i", f])).flatten).filter is_image)).length = 0)
    (hmk : o.mktempResult = Except.error rc) :
    assemble_movie o cwd fpaths name = (.exited 1, [.mktempFailed rc]) := by
  unfold assemble_movie sequential_links_enter
  rw [if_neg hlen, hmk]

theorem assemble_movie_eq_mktemp_ok (o : Oracle) (cwd : String)
    (fpaths : List String) (name : String) (tmp : String)
    (hlen : ¬ ((((fpaths.map (fun f => ["-i", f])).flatten).filter is_image)).length = 0)
    (hmk : o.mktempResult = Except.ok tmp) :
    assemble_movie o cwd fpaths name =
      (.returned o.ffmpegResult,
        (.mktemp tmp ::
          (((((fpaths.map (fun f => ["-i", f])).flatten).filter is_image).map
              (fun f => cwd ++ "/" ++ f)).enum.map fun p =>
            .link p.2 (tmp ++ "/" ++ link_name p.1) (o.lnResult p.1)) ++
          [.listing tmp]) ++
        [.ffmpeg ("ffmpeg -f image2 -i " ++ tmp ++ "/%06d.jpg -r " ++
          toString FFMPEG_RATE ++ " " ++ name ++ ".mp4") o.ffmpegResult] ++
        [.rmrf tmp]) := by
  unfold assemble_movie sequential_links_enter sequential_links_cleanup
  rw [if_neg hlen, hmk]

/-- C3: on every modelled exit path of an assembly, the staging temporary
directory, once created, is deleted: any trace containing the creation of a
temp dir also contains its recursive removal.  (A mktemp failure exits
before any directory exists, and the encoder's status — zero or not — is
returned rather than raised, so the cleanup after the `yield` runs.) -/
theorem assemble_movie_cleans_staging (o : Oracle) (cwd : String)
    (fpaths : List String) (name : String) (tmp : String)
    (h : Event.mktemp tmp ∈ (assemble_movie o cwd fpaths name).2) :
    Event.rmrf tmp ∈ (assemble_movie o cwd fpaths name).2 := by
  by_cases hlen :
      ((((fpaths.map (fun f => ["-i", f])).flatten).filter is_image)).length = 0
  · rw [assemble_movie_eq_no_images o cwd fpaths name hlen] at h
    simp at h
  · cases hmk : o.mktempResult with
    | error rc =>
      rw [assemble_movie_eq_mktemp_error o cwd fpaths name rc hlen hmk] at h
      simp at h
    | ok t =>
      rw [assemble_movie_eq_mktemp_ok o cwd fpaths name t hlen hmk] at h ⊢
      simp at h ⊢
      exact h

/-- Witness for C3: a concrete successful assembly whose trace creates the
staging directory; the theorem yields its removal event. -/
theorem assemble_movie_cleans_staging_witness :
    Event.rmrf "/tmp/make_movie.ABC123" ∈
      (assemble_movie ⟨Except.ok "/tmp/make_movie.ABC123", fun _ => 0, 0⟩
        "/cwd" ["a.jpg"] (movie_name 0)).2 :=
  assemble_movie_cleans_staging _ _ _ _ _ (by decide)

/-- C4, behavior of the code at the failing input: the first (and only)
`ln` invocation exits with status 1, yet the assembly is not aborted, no
error is reported, the encoder is still invoked, and the call returns the
encoder's status — because `subprocess.call` never raises
`CalledProcessError`, the link-failure handler in `sequential_links` is
unreachable. -/
theorem assemble_movie_link_failure_ignored :
    assemble_movie ⟨Except.ok "/tmp/make_movie.ABC123", fun _ => 1, 0⟩
        "/cwd" ["a.jpg"] (movie_name 0) =
      (.returned 0,
        [.mktemp "/tmp/make_movie.ABC123",
          .link "/cwd/a.jpg" "/tmp/make_movie.ABC123/000000.jpg" 1,
          .listing "/tmp/make_movie.ABC123",
          .ffmpeg "ffmpeg -f image2 -i /tmp/make_movie.ABC123/%06d.jpg -r 4 movie_000.mp4" 0,
          .rmrf "/tmp/make_movie.ABC123"]) := by
  decide

/-- Counterexample to C5 as stated: staging-directory creation fails for
the first group, the process exits with code 1, no per-group code is ever
reported, and the second group — 100 seconds later, hence a separate group
— is never assembled. -/
theorem main_mkdir_failure_stops_run :
    main_run (fun _ => ⟨Except.error 1, fun _ => 0, 0⟩) "/cwd"
      [(0, "a.jpg"), (100000000, "b.jpg")] = ([], some 1) := by
  unfold main_run group_by_mtime
  rw [List.mergeSort_of_sorted (by decide)]
  decide

/-- C5 amended: when an assembly returns a code — encoder success, nonzero
encoder exit, or the "no images" failure — that code is reported and the
loop continues with the next group; but when an assembly calls `sys.exit`
(staging directory creation failure), the whole run terminates and the
remaining groups are not processed. -/
theorem run_groups_continuation (o : ℕ → Oracle) (cwd : String) (idx : ℕ)
    (grp : List String) (rest : List (List String)) :
    (∀ (rc : ℤ) (tr : List Event),
      assemble_movie (o idx) cwd grp (movie_name idx) = (.returned rc, tr) →
      run_groups o cwd idx (grp :: rest) =
        (rc :: (run_groups o cwd (idx + 1) rest).1,
          (run_groups o cwd (idx + 1) rest).2)) ∧
    (∀ (rc : ℤ) (tr : List Event),
      assemble_movie (o idx) cwd grp (movie_name idx) = (.exited rc, tr) →
      run_groups o cwd idx (grp :: rest) = ([], some rc)) := by
  constructor
  · intro rc tr h
    simp only [run_groups]
    rw [h]
  · intro rc tr h
    simp only [run_groups]
    rw [h]

/-- Witness for C5's amended statement: a run whose first group assembles
normally continues with the second group. -/
theorem run_groups_continuation_witness :
    run_groups (fun _ => ⟨Except.ok "/tmp/make_movie.ABC123", fun _ => 0, 0⟩)
        "/cwd" 0 [["a.jpg"], ["b.jpg"]] =
      (0 :: (run_groups
          (fun _ => ⟨Except.ok "/tmp/make_movie.ABC123", fun _ => 0, 0⟩)
          "/cwd" 1 [["b.jpg"]]).1,
        (run_groups
          (fun _ => ⟨Except.ok "/tmp/make_movie.ABC123", fun _ => 0, 0⟩)
          "/cwd" 1 [["b.jpg"]]).2) :=
  (run_groups_continuation _ _ 0 ["a.jpg"] [["b.jpg"]]).1 0 _ rfl

/-- C6: when no input path is recognized as an image by the extension
filter, `assemble_movie` returns the failure code 1 immediately with an
empty trace: no staging directory is created, no link is made and the
encoder is never invoked. -/
theorem assemble_movie_no_images (o : Oracle) (cwd : String)
    (fpaths : List String) (name : String)
    (h : fpaths.filter is_image = []) :
    assemble_movie o cwd fpaths name = (.returned 1, []) := by
  apply assemble_movie_eq_no_images
  rw [filter_in_files, h]
  rfl

/-- Witness for C6 at a concrete non-image input. -/
theorem assemble_movie_no_images_witness :
    assemble_movie ⟨Except.ok "/tmp/make_movie.ABC123", fun _ => 0, 0⟩
        "/cwd" ["a.png"] (movie_name 0) = (.returned 1, []) :=
  assemble_movie_no_images _ _ _ _ (by decide)

/-- C9: the output artifacts for groups 0 through 9 are movie_000.mp4
through movie_009.mp4 (zero-padded to width 3, with the fixed prefix and
the ".mp4" extension appended by the assembler), and the staged links are
named by the zero-based file index zero-padded to width 6 with the ".jpg"
extension — wider indices are not truncated. -/
theorem output_and_link_names :
    (List.range 10).map (fun idx => movie_name idx ++ ".mp4") =
      ["movie_000.mp4", "movie_001.mp4", "movie_002.mp4", "movie_003.mp4",
        "movie_004.mp4", "movie_005.mp4", "movie_006.mp4", "movie_007.mp4",
        "movie_008.mp4", "movie_009.mp4"] ∧
    (List.range 10).map link_name =
      ["000000.jpg", "000001.jpg", "000002.jpg", "000003.jpg", "000004.jpg",
        "000005.jpg", "000006.jpg", "000007.jpg", "000008.jpg", "000009.jpg"] ∧
    link_name 123456 = "123456.jpg" := by
  decide

theorem drop_sub_three_eq_iff (l : List Char) :
    l.drop (l.length - 3) = ['j', 'p', 'g'] ↔
      ∃ t : List Char, l = t ++ ['j', 'p', 'g'] := by
  constructor
  · intro h
    refine ⟨l.take (l.length - 3), ?_⟩
    conv_lhs => rw [← List.take_append_drop (l.length - 3) l]
    rw [h]
  · rintro ⟨t, rfl⟩
    have hlen : (t ++ ['j', 'p', 'g']).length - 3 = t.length := by simp
    rw [hlen]
    exact List.drop_left t ['j', 'p', 'g']

/-- C10: the image filter of `assemble_movie` retains a path exactly when
its last three characters are "jpg" — equivalently, when "jpg" is a suffix
of the path, dotted or not — and a retained single path really is staged:
once the temp dir is created, the trace links that path under the first
sequential name. -/
theorem is_image_iff_jpg_suffix (s : String) :
    (is_image s = true ↔ ∃ t : String, s = t ++ "jpg") ∧
    (is_image s = true → ∀ (o : Oracle) (cwd name tmp : String),
      o.mktempResult = Except.ok tmp →
      Event.link (cwd ++ "/" ++ s) (tmp ++ "/" ++ link_name 0) (o.lnResult 0) ∈
        (assemble_movie o cwd [s] name).2) := by
  constructor
  · have h0 : (is_image s = true) ↔
        (s.data.drop (s.data.length - 3) = "jpg".data) := by
      simp [is_image]
    rw [h0, (by rfl : "jpg".data = ['j', 'p', 'g']), drop_sub_three_eq_iff]
    constructor
    · rintro ⟨td, h⟩
      refine ⟨String.mk td, String.ext ?_⟩
      simpa using h
    · rintro ⟨t, rfl⟩
      exact ⟨t.data, by simp⟩
  · intro hs o cwd name tmp hmk
    have hfil : (((([s]).map (fun f => ["-i", f])).flatten).filter is_image) =
        [s] := by
      rw [filter_in_files]
      simp [List.filter_cons, hs]
    rw [assemble_movie_eq_mktemp_ok o cwd [s] name tmp (by rw [hfil]; simp) hmk]
    rw [hfil]
    simp [List.enum]

/-- Witness for C10: "imgjpg" — ending in plain "jpg" with no dot — passes
the filter, and is staged as the first sequential link. -/
theorem is_image_iff_jpg_suffix_witness :
    is_image "imgjpg" = true ∧
    Event.link "/cwd/imgjpg" "/tmp/make_movie.ABC123/000000.jpg" 0 ∈
      (assemble_movie ⟨Except.ok "/tmp/make_movie.ABC123", fun _ => 0, 0⟩
        "/cwd" ["imgjpg"] (movie_name 0)).2 :=
  ⟨(is_image_iff_jpg_suffix "imgjpg").1.mpr ⟨"img", rfl⟩,
    (is_image_iff_jpg_suffix "imgjpg").2
      ((is_image_iff_jpg_suffix "imgjpg").1.mpr ⟨"img", rfl⟩)
      _ "/cwd" (movie_name 0) "/tmp/make_movie.ABC123" rfl⟩

end Mkmovies
